import Mathlib

/-!
Shallow embedding of the Euler-trail core of `src/backend/app.py`
(the mixed-graph pipeline: `_mixed_connectivity_ok`,
`_analyze_mixed_graph`, `_hierholzer_mixed`, and the mixed branch of the
`find_euler_trail` route), together with theorems settling the frozen
claims about this program.

Python dicts keyed by vertex are modelled as total functions with the
defaultdict default `[]`; Python sets are modelled as duplicate-free
lists; the unbounded `while` loops are modelled with an explicit fuel
that provably (or by construction) exceeds the number of iterations the
Python loop can perform before terminating.  An edge dict that lacks the
`'directed'` key is modelled with `directed = none`, and every access
goes through `isDirected`, mirroring `edge.get('directed', False)`.
-/

namespace EulerTrail

/-- An edge record as received by the mixed-graph pipeline:
`{id, source, target}` plus an optional `directed` flag (`none` models a
Python dict without the `'directed'` key). -/
structure Edge where
  id : String
  source : String
  target : String
  directed : Option Bool
deriving DecidableEq, Repr

/-- `edge.get('directed', False)` — the only way the core reads the flag. -/
def isDirected (e : Edge) : Bool := e.directed.getD false

/-! ### Degree analysis (`_analyze_mixed_graph`, degree-counting loops) -/

/-- Contribution of one edge to `in_degree[v]`: a directed edge adds 1 at its
target; an undirected edge adds 1 at each of its two endpoint slots. -/
def inContrib (e : Edge) (v : String) : Nat :=
  if isDirected e then (if e.target = v then 1 else 0)
  else (if e.source = v then 1 else 0) + (if e.target = v then 1 else 0)

/-- Contribution of one edge to `out_degree[v]`: a directed edge adds 1 at its
source; an undirected edge adds 1 at each of its two endpoint slots. -/
def outContrib (e : Edge) (v : String) : Nat :=
  if isDirected e then (if e.source = v then 1 else 0)
  else (if e.source = v then 1 else 0) + (if e.target = v then 1 else 0)

/-- `in_degree[v]` accumulated over the edge list. -/
def inDegree (edges : List Edge) (v : String) : Nat :=
  (edges.map (fun e => inContrib e v)).sum

/-- `out_degree[v]` accumulated over the edge list. -/
def outDegree (edges : List Edge) (v : String) : Nat :=
  (edges.map (fun e => outContrib e v)).sum

/-- The `start_candidates` list: nodes with `out_degree - in_degree == 1`. -/
def startCandidates (nodes : List String) (edges : List Edge) : List String :=
  nodes.filter (fun n => outDegree edges n == inDegree edges n + 1)

/-- The `end_candidates` list: nodes with `in_degree - out_degree == 1`. -/
def endCandidates (nodes : List String) (edges : List Edge) : List String :=
  nodes.filter (fun n => inDegree edges n == outDegree edges n + 1)

/-- The `problematic_nodes` list: non-balanced nodes whose imbalance is not
`+1` and not `-1` (isolated nodes are balanced, hence never problematic). -/
def problematicNodes (nodes : List String) (edges : List Edge) : List String :=
  nodes.filter (fun n =>
    inDegree edges n != outDegree edges n
    && outDegree edges n != inDegree edges n + 1
    && inDegree edges n != outDegree edges n + 1)

/-! ### Connectivity (`_mixed_connectivity_ok`) -/

/-- Add an element to a duplicate-free list (Python `set.add`). -/
def insertNew (x : String) (xs : List String) : List String :=
  if x ∈ xs then xs else xs ++ [x]

/-- `vertices_with_edges`: every endpoint of every edge, in first-occurrence
order, without duplicates. -/
def verticesWithEdges (edges : List Edge) : List String :=
  edges.foldl (fun acc e => insertNew e.target (insertNew e.source acc)) []

/-- Add `v` to the neighbour set of `u` (`adj[u].add(v)`). -/
def addNbr (adj : String → List String) (u v : String) : String → List String :=
  fun w => if w = u then insertNew v (adj u) else adj w

/-- The undirected connectivity adjacency (`adj[u].add(v); adj[v].add(u)` for
every edge, ignoring the direction flag). -/
def connAdj (edges : List Edge) : String → List String :=
  edges.foldl (fun adj e => addNbr (addNbr adj e.source e.target) e.target e.source)
    (fun _ => [])

/-- The BFS loop of `_mixed_connectivity_ok`: pop a vertex, mark and enqueue
its unvisited neighbours.  `fuel` bounds the number of pops; each pop
corresponds to one enqueued vertex, and at most `|vertices_with_edges|`
vertices are ever enqueued, so fuel `|vertices_with_edges|` is enough. -/
def bfsAux (adj : String → List String) : Nat → List String → List String → List String
  | 0, _, visited => visited
  | _ + 1, [], visited => visited
  | fuel + 1, x :: q, visited =>
      let fresh := (adj x).filter (fun y => !visited.contains y)
      bfsAux adj fuel (q ++ fresh) (visited ++ fresh)

/-- `_mixed_connectivity_ok`: BFS from an arbitrary non-isolated vertex over
the undirected skeleton; true iff the visited set equals the set of
non-isolated vertices (an empty edge list is vacuously connected).  The
`nodes` argument is, as in the source, not consulted. -/
def mixedConnectivityOk (nodes : List String) (edges : List Edge) : Bool :=
  let verts := verticesWithEdges edges
  match verts with
  | [] => true
  | s :: _ =>
      let visited := bfsAux (connAdj edges) verts.length [s] [s]
      verts.all (fun v => visited.contains v) && visited.all (fun v => verts.contains v)

/-! ### The analyzer verdict (`_analyze_mixed_graph`) -/

/-- The `info` dict returned on a feasible verdict. -/
structure AnalysisInfo where
  kind : String
  start : Option String
  stop : Option String
  directedEdges : Nat
  undirectedEdges : Nat
deriving DecidableEq, Repr

/-- The 4-tuple `(ok, start, message, info)` returned by
`_analyze_mixed_graph` (`info = none` models the empty dict on failure). -/
structure AnalyzeResult where
  ok : Bool
  start : Option String
  message : String
  info : Option AnalysisInfo
deriving DecidableEq, Repr

/-- `_analyze_mixed_graph`: connectivity first, then the degree
classification, then the start/end candidate decision table.  Note that on a
zero-edge graph both candidate lists are empty and `nodes.find?` yields
`none`, so the function returns `ok = true` with `start = none`. -/
def analyzeMixedGraph (nodes : List String) (edges : List Edge) : AnalyzeResult :=
  if mixedConnectivityOk nodes edges then
    if (problematicNodes nodes edges).isEmpty then
      match startCandidates nodes edges, endCandidates nodes edges with
      | [], [] =>
          let s := nodes.find? (fun n => decide (0 < outDegree edges n))
          { ok := true, start := s, message := "Euler cycle found"
            info := some { kind := "cycle", start := s, stop := none
                           directedEdges := (edges.filter (fun e => isDirected e)).length
                           undirectedEdges := (edges.filter (fun e => !isDirected e)).length } }
      | [s], [e] =>
          { ok := true, start := some s, message := "Euler path found"
            info := some { kind := "path", start := some s, stop := some e
                           directedEdges := (edges.filter (fun e => isDirected e)).length
                           undirectedEdges := (edges.filter (fun e => !isDirected e)).length } }
      | _, _ =>
          { ok := false, start := none
            message := "Invalid start/end configuration", info := none }
    else
      { ok := false, start := none
        message := "Nodes have invalid degree balance for Euler trail", info := none }
  else
    { ok := false, start := none, message := "Graph is not connected", info := none }

/-! ### Trail builder (`_hierholzer_mixed`) -/

/-- Push an adjacency option onto `adj[u]` (`adj[u].append((eid, v))`). -/
def pushOpt (adj : String → List (String × String)) (u : String) (p : String × String) :
    String → List (String × String) :=
  fun w => if w = u then adj u ++ [p] else adj w

/-- The adjacency of `_hierholzer_mixed`: a directed edge contributes one
option at its source, an undirected edge one option at each endpoint (an
undirected self-loop therefore contributes two options with the same id). -/
def buildAdj (edges : List Edge) : String → List (String × String) :=
  edges.foldl (fun adj e =>
    let adj1 := pushOpt adj e.source (e.id, e.target)
    if isDirected e then adj1 else pushOpt adj1 e.target (e.id, e.source)) (fun _ => [])

/-- Scan `remaining_edges[curr]` for the first option whose edge id is not in
`used_edges`, returning its index, id and endpoint. -/
def findUnusedIdx (used : List String) : List (String × String) → Nat →
    Option (Nat × String × String)
  | [], _ => none
  | (eid, w) :: rest, i =>
      if used.contains eid then findUnusedIdx used rest (i + 1) else some (i, eid, w)

/-- Remove the first occurrence of the reverse option `(eid, curr)` from an
adjacency list (the `rev_eid == eid and rev_target == curr` loop). -/
def removeReverse (eid curr : String) : List (String × String) → List (String × String)
  | [] => []
  | (a, b) :: rest =>
      if a = eid ∧ b = curr then rest else (a, b) :: removeReverse eid curr rest

/-- One-pass core of `find_circuit`: the stack is kept with its top at the
head.  When an unused option exists at the top, consume it (erasing its entry
and, for an undirected edge, the reverse entry at the other endpoint);
otherwise pop the top onto the circuit.  Each consuming step adds a fresh id
to `used` and each popping step shrinks the stack, so
`2 * edges.length + 2` fuel covers every run that starts from one vertex. -/
def findCircuitAux (edges : List Edge) : Nat → List String → List String →
    List String → (String → List (String × String)) → List String × List String
  | 0, _, circuit, used, _ => (circuit, used)
  | _ + 1, [], circuit, used, _ => (circuit, used)
  | fuel + 1, curr :: stack, circuit, used, remaining =>
      match findUnusedIdx used (remaining curr) 0 with
      | some (i, eid, nv) =>
          let used1 := used ++ [eid]
          let rem1 := fun w => if w = curr then (remaining curr).eraseIdx i else remaining w
          let rem2 :=
            match edges.find? (fun e => e.id == eid) with
            | some eo =>
                if isDirected eo then rem1
                else fun w => if w = nv then removeReverse eid curr (rem1 nv) else rem1 w
            | none => rem1
          findCircuitAux edges fuel (nv :: curr :: stack) circuit used1 rem2
      | none => findCircuitAux edges fuel stack (circuit ++ [curr]) used remaining

/-- `find_circuit(start_node)`: fresh local `used_edges` and a fresh copy of
the adjacency, returning `(circuit, used_edges)`. -/
def findCircuit (edges : List Edge) (adj : String → List (String × String))
    (startNode : String) : List String × List String :=
  findCircuitAux edges (2 * edges.length + 2) [startNode] [] [] adj

/-- `used_edges.update(new_used_edges)` on the duplicate-free list model. -/
def usedUnion (used newUsed : List String) : List String :=
  used ++ newUsed.filter (fun x => !used.contains x)

/-- The splice loop of `_hierholzer_mixed`: while some edge id is unused,
look for a circuit vertex with an unused adjacency option, run
`find_circuit` from it and splice the reversed new circuit in at the first
occurrence of that vertex.  Each productive iteration enlarges `used`, which
never exceeds `edges.length` distinct ids, so `edges.length + 1` fuel covers
every terminating run of the Python loop. -/
def spliceLoop (edges : List Edge) (adj : String → List (String × String)) :
    Nat → List String → List String → List String × List String
  | 0, circuit, used => (circuit, used)
  | fuel + 1, circuit, used =>
      if used.length < edges.length then
        match circuit.find? (fun v => (adj v).any (fun p => !used.contains p.1)) with
        | none => (circuit, used)
        | some sv =>
            let r := findCircuit edges adj sv
            let used1 := usedUnion used r.2
            let idx := circuit.indexOf sv
            let circuit1 := circuit.take idx ++ r.1.reverse ++ circuit.drop (idx + 1)
            spliceLoop edges adj fuel circuit1 used1
      else (circuit, used)

/-- The step-recovery scan: the first edge whose id is not already in the
sequence and which connects `u` to `v` (in stored orientation, or in reverse
when undirected). -/
def findStepEdge (edges : List Edge) (seq : List String) (u v : String) : Option String :=
  (edges.find? (fun e =>
    !seq.contains e.id
    && ((e.source == u && e.target == v)
        || (!isDirected e && e.source == v && e.target == u)))).map (fun e => e.id)

/-- The `edge_sequence` reconstruction loop over consecutive vertex pairs of
the path; `none` models the `return None` on a pair with no matching edge. -/
def buildSequence (edges : List Edge) : List String → List String → Option (List String)
  | u :: v :: rest, seq =>
      match findStepEdge edges seq u v with
      | some eid => buildSequence edges (v :: rest) (seq ++ [eid])
      | none => none
  | _, seq => some seq

/-- The walking part of `_hierholzer_mixed` once the analyzer has supplied a
start vertex: walk, splice, reverse, re-match, and the defensive final
length check. -/
def hierholzerFrom (edges : List Edge) (start : String) : Option (List String) :=
  let adj := buildAdj edges
  let fc := findCircuit edges adj start
  let sp := spliceLoop edges adj (edges.length + 1) fc.1 fc.2
  let path := sp.1.reverse
  if path.length < 2 then none
  else
    match buildSequence edges path [] with
    | some seq => if seq.length = edges.length then some seq else none
    | none => none

/-- `_hierholzer_mixed`: run the analyzer and, unless it failed or yielded no
start vertex (`if not ok or start is None`), build the trail. -/
def hierholzerMixed (nodes : List String) (edges : List Edge) : Option (List String) :=
  match (analyzeMixedGraph nodes edges).start, (analyzeMixedGraph nodes edges).ok with
  | some start, true => hierholzerFrom edges start
  | _, _ => none

/-! ### The route (`find_euler_trail`, mixed branch) -/

/-- One element of the `trail` array in a successful response. -/
structure TrailStep where
  step : Nat
  edgeId : String
  source : String
  target : String
  directed : Bool
deriving DecidableEq, Repr

/-- `edge_map[edge_id]`: Python dict comprehension, so on duplicate ids the
last edge wins; `none` is unreachable because trail ids come from `edges`. -/
def lookupEdge (edges : List Edge) (eid : String) : Option Edge :=
  edges.reverse.find? (fun e => e.id == eid)

/-- The `trail_steps` assembly loop (`enumerate(trail, 1)`), emitting each
step with the stored `source`/`target` of the looked-up edge. -/
def mkTrailStepsAux (edges : List Edge) : Nat → List String → List TrailStep
  | _, [] => []
  | i, eid :: rest =>
      match lookupEdge edges eid with
      | some e =>
          { step := i, edgeId := eid, source := e.source, target := e.target
            directed := isDirected e } :: mkTrailStepsAux edges (i + 1) rest
      | none => mkTrailStepsAux edges (i + 1) rest

def mkTrailSteps (edges : List Edge) (trail : List String) : List TrailStep :=
  mkTrailStepsAux edges 1 trail

/-- The JSON body of a mixed-branch response, restricted to the fields the
claims speak about. -/
structure EulerResponse where
  success : Bool
  error : Option String
  trail : Option (List TrailStep)
deriving DecidableEq, Repr

/-- The mixed branch of the `find_euler_trail` route: the `if not edges`
guard, the analyzer, the trail builder, and the step assembly. -/
def findEulerTrailMixed (nodes : List String) (edges : List Edge) : EulerResponse :=
  if edges.isEmpty then
    { success := false, error := some "No edges provided", trail := none }
  else
    let r := analyzeMixedGraph nodes edges
    if r.ok then
      match hierholzerMixed nodes edges with
      | none =>
          { success := false, error := some "Could not construct Euler trail", trail := none }
      | some trail =>
          { success := true, error := none, trail := some (mkTrailSteps edges trail) }
    else
      { success := false, error := some r.message, trail := none }

/-- The walk-continuity property of a step list: each step's target is the
next step's source. -/
def chainOk : List TrailStep → Bool
  | s1 :: s2 :: rest => s1.target == s2.source && chainOk (s2 :: rest)
  | _ => true

/-! ### Degree bookkeeping lemmas -/

theorem inDegree_cons (e : Edge) (es : List Edge) (v : String) :
    inDegree (e :: es) v = inContrib e v + inDegree es v := by
  simp [inDegree]

theorem outDegree_cons (e : Edge) (es : List Edge) (v : String) :
    outDegree (e :: es) v = outContrib e v + outDegree es v := by
  simp [outDegree]

/-- C6: a directed edge `u→v` adds 1 to `u`'s out-degree and 1 to `v`'s
in-degree (and nothing elsewhere); an undirected edge `{u,v}` adds 1 to both
the in-degree and the out-degree of each endpoint slot; and a self-loop,
directed or not (or with the flag omitted), contributes equally to in- and
out-degree, so it leaves every vertex's out-in imbalance unchanged — in
particular a self-loop alone keeps its vertex's imbalance at zero. -/
theorem c6_degree_rules (i u v w : String) (es : List Edge) (b : Option Bool) :
    outDegree (⟨i, u, v, some true⟩ :: es) w
      = outDegree es w + (if u = w then 1 else 0)
    ∧ inDegree (⟨i, u, v, some true⟩ :: es) w
      = inDegree es w + (if v = w then 1 else 0)
    ∧ outDegree (⟨i, u, v, some false⟩ :: es) w
      = outDegree es w + (if u = w then 1 else 0) + (if v = w then 1 else 0)
    ∧ inDegree (⟨i, u, v, some false⟩ :: es) w
      = inDegree es w + (if u = w then 1 else 0) + (if v = w then 1 else 0)
    ∧ (outDegree (⟨i, u, u, b⟩ :: es) w : Int) - inDegree (⟨i, u, u, b⟩ :: es) w
      = (outDegree es w : Int) - inDegree es w
    ∧ outDegree [Edge.mk i u u b] w = inDegree [Edge.mk i u u b] w := by
  have hloop : ∀ (b : Option Bool), outContrib ⟨i, u, u, b⟩ w = inContrib ⟨i, u, u, b⟩ w := by
    intro b
    rfl
  refine ⟨?_, ?_, ?_, ?_, ?_, ?_⟩
  · simp only [outDegree_cons, outContrib, isDirected, Option.getD_some, if_true,
      Bool.false_eq_true, if_false]
    split_ifs <;> omega
  · simp only [inDegree_cons, inContrib, isDirected, Option.getD_some, if_true,
      Bool.false_eq_true, if_false]
    split_ifs <;> omega
  · simp only [outDegree_cons, outContrib, isDirected, Option.getD_some, if_true,
      Bool.false_eq_true, if_false]
    split_ifs <;> omega
  · simp only [inDegree_cons, inContrib, isDirected, Option.getD_some, if_true,
      Bool.false_eq_true, if_false]
    split_ifs <;> omega
  · rw [outDegree_cons, inDegree_cons, hloop]
    push_cast
    ring
  · show outDegree (⟨i, u, u, b⟩ :: []) w = inDegree (⟨i, u, u, b⟩ :: []) w
    rw [outDegree_cons, inDegree_cons, hloop]
    simp [inDegree, outDegree]

/-! ### C3: the zero-edge graph -/

/-- C3 counterexample: on a zero-edge graph `_analyze_mixed_graph` itself
returns a feasible verdict (`ok = true`, message "Euler cycle found"), not an
infeasible "no edges" verdict as the claim states. -/
theorem c3_zero_edges_analyzer_feasible_counterexample :
    (analyzeMixedGraph ["A"] []).ok = true
    ∧ (analyzeMixedGraph ["A"] []).message = "Euler cycle found" := by
  decide

/-- C3 amended: for every input with an empty edge list the route
`find_euler_trail` reports failure with reason "No edges provided" before the
analyzer runs; `_analyze_mixed_graph` itself, applied to a zero-edge graph,
returns `ok = true` with no start vertex. -/
theorem c3_zero_edges_route_guard (nodes : List String) :
    findEulerTrailMixed nodes []
      = { success := false, error := some "No edges provided", trail := none }
    ∧ (analyzeMixedGraph nodes []).ok = true
    ∧ (analyzeMixedGraph nodes []).start = none := by
  have hconn : mixedConnectivityOk nodes [] = true := rfl
  have hdeg : ∀ v, inDegree [] v = 0 ∧ outDegree [] v = 0 := by
    intro v; exact ⟨rfl, rfl⟩
  have hanalyze : analyzeMixedGraph nodes [] =
      { ok := true, start := none, message := "Euler cycle found"
        info := some { kind := "cycle", start := none, stop := none
                       directedEdges := 0, undirectedEdges := 0 } } := by
    unfold analyzeMixedGraph
    rw [hconn]
    have hp : problematicNodes nodes [] = [] := by
      unfold problematicNodes
      simp [inDegree, outDegree]
    have hs : startCandidates nodes [] = [] := by
      unfold startCandidates
      simp [inDegree, outDegree]
    have he : endCandidates nodes [] = [] := by
      unfold endCandidates
      simp [inDegree, outDegree]
    rw [hp, hs, he]
    have hf : nodes.find? (fun n => decide (0 < outDegree [] n)) = none := by
      rw [List.find?_eq_none]
      intro x _
      simp [outDegree]
    simp [hf]
  exact ⟨rfl, by rw [hanalyze], by rw [hanalyze]⟩

/-! ### C1: the pipeline can succeed with non-chaining steps -/

/-- C1 (code bug witness): on the mixed graph with `e1 : A→B` directed,
`e2 : C—B` undirected and `e3 : A—C` undirected, the pipeline reports
success, yet the emitted steps carry the stored edge orientations
(`step 2` is `C→B`), so consecutive steps do not chain: step 1 ends at `B`
while step 2 starts at `C`. -/
theorem c1_success_without_chaining :
    (findEulerTrailMixed ["A", "B", "C"]
        [⟨"e1", "A", "B", some true⟩, ⟨"e2", "C", "B", some false⟩,
         ⟨"e3", "A", "C", some false⟩]).success = true
    ∧ ((findEulerTrailMixed ["A", "B", "C"]
        [⟨"e1", "A", "B", some true⟩, ⟨"e2", "C", "B", some false⟩,
         ⟨"e3", "A", "C", some false⟩]).trail.map chainOk) = some false := by
  decide

/-! ### Success facts about the trail builder -/

theorem findStepEdge_spec {edges : List Edge} {seq : List String} {u v eid : String}
    (h : findStepEdge edges seq u v = some eid) :
    (∃ e ∈ edges, e.id = eid) ∧ eid ∉ seq := by
  unfold findStepEdge at h
  rw [Option.map_eq_some'] at h
  obtain ⟨e, hf, hid⟩ := h
  have hp := List.find?_some hf
  have hm := List.mem_of_find?_eq_some hf
  subst hid
  simp only [Bool.and_eq_true, Bool.not_eq_true'] at hp
  refine ⟨⟨e, hm, rfl⟩, ?_⟩
  intro hmem
  have := hp.1
  simp at this
  exact this hmem

theorem buildSequence_spec {edges : List Edge} :
    ∀ (path seq r : List String),
      buildSequence edges path seq = some r → seq.Nodup →
      r.Nodup ∧ ∀ x ∈ r, x ∈ seq ∨ ∃ e ∈ edges, e.id = x := by
  intro path
  induction path with
  | nil =>
      intro seq r h hnd
      cases h
      exact ⟨hnd, fun x hx => Or.inl hx⟩
  | cons u rest ih =>
      cases rest with
      | nil =>
          intro seq r h hnd
          cases h
          exact ⟨hnd, fun x hx => Or.inl hx⟩
      | cons v rest2 =>
          intro seq r h hnd
          simp only [buildSequence] at h
          rcases hstep : findStepEdge edges seq u v with _ | eid <;> rw [hstep] at h
          · cases h
          · obtain ⟨hedge, hfresh⟩ := findStepEdge_spec hstep
            have hnd2 : (seq ++ [eid]).Nodup := by
              rw [List.nodup_append]
              refine ⟨hnd, List.nodup_singleton eid, ?_⟩
              intro a ha hb
              rw [List.mem_singleton] at hb
              exact hfresh (hb ▸ ha)
            obtain ⟨hr, hsub⟩ := ih (seq ++ [eid]) r h hnd2
            refine ⟨hr, fun x hx => ?_⟩
            rcases hsub x hx with hin | hex
            · rw [List.mem_append, List.mem_singleton] at hin
              rcases hin with hin | rfl
              · exact Or.inl hin
              · exact Or.inr hedge
            · exact Or.inr hex

theorem hierholzerFrom_success {edges : List Edge} {start : String} {s : List String}
    (h : hierholzerFrom edges start = some s) :
    (∃ path, buildSequence edges path [] = some s) ∧ s.length = edges.length := by
  simp only [hierholzerFrom] at h
  split at h
  · cases h
  · split at h
    · rename_i seq hseq
      split at h
      · rename_i hlen
        cases h
        exact ⟨⟨_, hseq⟩, hlen⟩
      · cases h
    · cases h

theorem hierholzerFrom_perm {edges : List Edge} {start : String} {s : List String}
    (h : hierholzerFrom edges start = some s) :
    s.Perm (edges.map (fun e => e.id)) := by
  obtain ⟨⟨path, hseq⟩, hlen⟩ := hierholzerFrom_success h
  obtain ⟨hnd, hsub⟩ := buildSequence_spec path [] s hseq List.nodup_nil
  have hsubset : s ⊆ edges.map (fun e => e.id) := by
    intro x hx
    rcases hsub x hx with hin | ⟨e, hmem, hid⟩
    · cases hin
    · exact List.mem_map.mpr ⟨e, hmem, hid⟩
  have hsp : List.Subperm s (edges.map (fun e => e.id)) := hnd.subperm hsubset
  refine hsp.perm_of_length_le ?_
  rw [List.length_map, hlen]

theorem hierholzerMixed_some {nodes : List String} {edges : List Edge} {s : List String}
    (h : hierholzerMixed nodes edges = some s) :
    ∃ start, (analyzeMixedGraph nodes edges).start = some start
      ∧ (analyzeMixedGraph nodes edges).ok = true
      ∧ hierholzerFrom edges start = some s := by
  unfold hierholzerMixed at h
  split at h
  · rename_i start hstart hok
    exact ⟨start, hstart, hok, h⟩
  · cases h

/-- C8: the mixed trail builder checks its produced edge sequence against the
total edge count; whenever it returns a trail at all, that trail covers
exactly `|edges|` steps — every other outcome (including a failed re-match or
a short path) is `none`, never a partial trail. -/
theorem c8_all_or_nothing (nodes : List String) (edges : List Edge) (s : List String)
    (h : hierholzerMixed nodes edges = some s) : s.length = edges.length := by
  obtain ⟨start, -, -, hf⟩ := hierholzerMixed_some h
  exact (hierholzerFrom_success hf).2

/-- Witness for C8 at the spec's mixed-graph example. -/
theorem c8_all_or_nothing_witness :
    hierholzerMixed ["A", "B", "C"]
        [⟨"e1", "A", "B", some true⟩, ⟨"e2", "B", "C", some false⟩,
         ⟨"e3", "C", "A", some false⟩] = some ["e1", "e2", "e3"]
    ∧ (["e1", "e2", "e3"] : List String).length
        = ([⟨"e1", "A", "B", some true⟩, ⟨"e2", "B", "C", some false⟩,
            ⟨"e3", "C", "A", some false⟩] : List Edge).length :=
  ⟨by decide,
   c8_all_or_nothing ["A", "B", "C"]
     [⟨"e1", "A", "B", some true⟩, ⟨"e2", "B", "C", some false⟩,
      ⟨"e3", "C", "A", some false⟩] ["e1", "e2", "e3"] (by decide)⟩

/-! ### C2: parallel undirected edges with distinct ids -/

theorem mkTrailStepsAux_map_edgeId (edges : List Edge) :
    ∀ (trail : List String) (i : Nat),
      (∀ x ∈ trail, ∃ e ∈ edges, e.id = x) →
      (mkTrailStepsAux edges i trail).map (fun st => st.edgeId) = trail := by
  intro trail
  induction trail with
  | nil => intro i _; rfl
  | cons eid rest ih =>
      intro i hall
      rcases hlk : lookupEdge edges eid with _ | e
      · exfalso
        obtain ⟨e, hm, hid⟩ := hall eid (by simp)
        rw [lookupEdge, List.find?_eq_none] at hlk
        exact hlk e (List.mem_reverse.mpr hm) (by simp [hid])
      · simp only [mkTrailStepsAux, hlk, List.map_cons]
        rw [ih (i + 1) (fun x hx => hall x (List.mem_cons_of_mem _ hx))]

/-- C2: on a multigraph containing two parallel undirected edges with
distinct ids between the same vertex pair, any trail the builder returns
contains each of the two ids exactly once, is duplicate-free overall (the
step-recovery scan never re-selects an already-used edge id), and the emitted
steps carry exactly the recovered ids in order. -/
theorem c2_parallel_undirected_edges (nodes : List String) (edges : List Edge)
    (e1 e2 : Edge) (t : List String)
    (hids : (edges.map (fun e => e.id)).Nodup)
    (h1 : e1 ∈ edges) (h2 : e2 ∈ edges)
    (hsrc : e1.source = e2.source) (htgt : e1.target = e2.target)
    (hu1 : isDirected e1 = false) (hu2 : isDirected e2 = false)
    (hne : e1.id ≠ e2.id)
    (ht : hierholzerMixed nodes edges = some t) :
    t.count e1.id = 1 ∧ t.count e2.id = 1 ∧ t.Nodup
      ∧ (mkTrailSteps edges t).map (fun st => st.edgeId) = t := by
  obtain ⟨start, -, -, hf⟩ := hierholzerMixed_some ht
  have hperm := hierholzerFrom_perm hf
  have hcount : ∀ e : Edge, e ∈ edges → t.count e.id = 1 := by
    intro e he
    rw [hperm.count_eq]
    exact List.count_eq_one_of_mem hids (List.mem_map.mpr ⟨e, he, rfl⟩)
  have hnd : t.Nodup := hperm.nodup_iff.mpr hids
  refine ⟨hcount e1 h1, hcount e2 h2, hnd, ?_⟩
  apply mkTrailStepsAux_map_edgeId
  intro x hx
  have hxid : x ∈ edges.map (fun e => e.id) := hperm.subset hx
  obtain ⟨e, he, hid⟩ := List.mem_map.mp hxid
  exact ⟨e, he, hid⟩

/-- Witness for C2: the two-vertex multigraph with parallel undirected edges
`e1, e2 : A—B`. -/
theorem c2_parallel_undirected_edges_witness :
    (["e1", "e2"] : List String).count "e1" = 1
    ∧ (["e1", "e2"] : List String).count "e2" = 1
    ∧ (["e1", "e2"] : List String).Nodup
    ∧ (mkTrailSteps [⟨"e1", "A", "B", some false⟩, ⟨"e2", "A", "B", some false⟩]
        ["e1", "e2"]).map (fun st => st.edgeId) = ["e1", "e2"] :=
  c2_parallel_undirected_edges ["A", "B"]
    [⟨"e1", "A", "B", some false⟩, ⟨"e2", "A", "B", some false⟩]
    ⟨"e1", "A", "B", some false⟩ ⟨"e2", "A", "B", some false⟩ ["e1", "e2"]
    (by decide) (by decide) (by decide) rfl rfl rfl rfl (by decide) (by decide)

/-! ### C9: undirected self-loops -/

/-- The adjacency options one edge contributes at vertex `w`. -/
def optsAt (e : Edge) (w : String) : List (String × String) :=
  (if w = e.source then [(e.id, e.target)] else [])
    ++ (if isDirected e = false ∧ w = e.target then [(e.id, e.source)] else [])

theorem buildAdj_go (es : List Edge) :
    ∀ (adj : String → List (String × String)) (w : String),
      (es.foldl (fun adj e =>
        let adj1 := pushOpt adj e.source (e.id, e.target)
        if isDirected e then adj1 else pushOpt adj1 e.target (e.id, e.source)) adj) w
      = adj w ++ (es.map (fun e => optsAt e w)).flatten := by
  induction es with
  | nil => intro adj w; simp
  | cons e es ih =>
      intro adj w
      rw [List.foldl_cons, ih]
      have hstep : (let adj1 := pushOpt adj e.source (e.id, e.target)
          if isDirected e then adj1 else pushOpt adj1 e.target (e.id, e.source)) w
          = adj w ++ optsAt e w := by
        show (if isDirected e then pushOpt adj e.source (e.id, e.target)
              else pushOpt (pushOpt adj e.source (e.id, e.target)) e.target (e.id, e.source)) w
            = adj w ++ optsAt e w
        rcases hd : isDirected e with _ | _ <;>
          simp only [hd, if_true, Bool.false_eq_true, if_false, pushOpt, optsAt,
            eq_self_iff_true, true_and, false_and, if_neg (by simp : ¬(True ∧ False)),
            Bool.true_eq_false] <;>
          split_ifs <;> simp_all [List.append_assoc]
      rw [hstep, List.map_cons, List.flatten_cons, List.append_assoc]

theorem buildAdj_apply (edges : List Edge) (w : String) :
    buildAdj edges w = (edges.map (fun e => optsAt e w)).flatten := by
  have h := buildAdj_go edges (fun _ => []) w
  simpa [buildAdj] using h

theorem countP_optsAt_ne {e : Edge} {w i : String} (h : e.id ≠ i) :
    (optsAt e w).countP (fun p => p.1 == i) = 0 := by
  unfold optsAt
  rw [List.countP_append]
  split_ifs <;> simp [h]

theorem countP_optsAt_loop {e : Edge} (hund : isDirected e = false)
    (hloop : e.source = e.target) :
    (optsAt e e.source).countP (fun p => p.1 == e.id) = 2 := by
  unfold optsAt
  rw [List.countP_append, if_pos rfl, if_pos ⟨hund, hloop⟩]
  simp [List.countP_cons]

theorem sum_countP_optsAt (l : Edge) (hund : isDirected l = false)
    (hloop : l.source = l.target) :
    ∀ edges : List Edge, l ∈ edges → (edges.map (fun e => e.id)).Nodup →
      (edges.map (fun e => (optsAt e l.source).countP (fun p => p.1 == l.id))).sum = 2 := by
  intro edges
  induction edges with
  | nil => intro h; cases h
  | cons e es ih =>
      intro hmem hids
      rw [List.map_cons, List.sum_cons]
      rw [List.map_cons, List.nodup_cons] at hids
      rcases List.mem_cons.mp hmem with heq | hmem2
      · subst heq
        have hzero : (es.map (fun e2 =>
            (optsAt e2 l.source).countP (fun p => p.1 == l.id))).sum = 0 := by
          apply List.sum_eq_zero
          intro x hx
          obtain ⟨e2, he2, hval⟩ := List.mem_map.mp hx
          have hne : e2.id ≠ l.id := fun hc => hids.1 (List.mem_map.mpr ⟨e2, he2, hc⟩)
          rw [← hval]
          exact countP_optsAt_ne hne
        rw [hzero, countP_optsAt_loop hund hloop]
      · have hne : e.id ≠ l.id := fun hc =>
          hids.1 (hc ▸ List.mem_map.mpr ⟨l, hmem2, rfl⟩)
        rw [countP_optsAt_ne hne, ih hmem2 hids.2]

theorem buildAdj_countP_loop (edges : List Edge) (l : Edge)
    (hmem : l ∈ edges) (hids : (edges.map (fun e => e.id)).Nodup)
    (hund : isDirected l = false) (hloop : l.source = l.target) :
    ((buildAdj edges) l.source).countP (fun p => p.1 == l.id) = 2 := by
  rw [buildAdj_apply, List.countP_flatten, List.map_map]
  exact sum_countP_optsAt l hund hloop edges hmem hids

/-- C9: when the edge list contains an undirected self-loop, any returned
trail consumes the self-loop's id exactly once, the analysis the builder ran
reported no failure (in particular no degree imbalance), and this is despite
the adjacency holding two options that reference the self-loop's id. -/
theorem c9_undirected_self_loop (nodes : List String) (edges : List Edge)
    (l : Edge) (t : List String)
    (hids : (edges.map (fun e => e.id)).Nodup)
    (hmem : l ∈ edges) (hloop : l.source = l.target) (hund : isDirected l = false)
    (ht : hierholzerMixed nodes edges = some t) :
    t.count l.id = 1
    ∧ (analyzeMixedGraph nodes edges).ok = true
    ∧ ((buildAdj edges) l.source).countP (fun p => p.1 == l.id) = 2 := by
  obtain ⟨start, -, hok, hf⟩ := hierholzerMixed_some ht
  have hperm := hierholzerFrom_perm hf
  refine ⟨?_, hok, buildAdj_countP_loop edges l hmem hids hund hloop⟩
  rw [hperm.count_eq]
  exact List.count_eq_one_of_mem hids (List.mem_map.mpr ⟨l, hmem, rfl⟩)

/-- Witness for C9: an undirected self-loop `L : A—A` together with an
undirected edge `u : A—B`. -/
theorem c9_undirected_self_loop_witness :
    (["L", "u"] : List String).count "L" = 1
    ∧ (analyzeMixedGraph ["A", "B"]
        [⟨"L", "A", "A", some false⟩, ⟨"u", "A", "B", some false⟩]).ok = true
    ∧ ((buildAdj [⟨"L", "A", "A", some false⟩, ⟨"u", "A", "B", some false⟩]) "A").countP
        (fun p => p.1 == "L") = 2 :=
  c9_undirected_self_loop ["A", "B"]
    [⟨"L", "A", "A", some false⟩, ⟨"u", "A", "B", some false⟩]
    ⟨"L", "A", "A", some false⟩ ["L", "u"]
    (by decide) (by decide) rfl rfl (by decide)

/-! ### C4: connectivity failure takes precedence -/

/-- C4: on any graph (with at least one edge) that fails the connectivity
check and also has a degree-imbalanced vertex, the analyzer reports
"Graph is not connected" — the connectivity check runs first and its failure
is the reported reason, regardless of any degree-balance failure. -/
theorem c4_connectivity_precedence (nodes : List String) (edges : List Edge)
    (hedge : edges ≠ [])
    (hconn : mixedConnectivityOk nodes edges = false)
    (himb : ∃ v ∈ nodes, inDegree edges v ≠ outDegree edges v) :
    analyzeMixedGraph nodes edges
      = { ok := false, start := none, message := "Graph is not connected", info := none } := by
  simp [analyzeMixedGraph, hconn]

/-- Witness for C4: two parallel directed edges `A→B` (so `A` and `B` are
imbalanced with magnitude 2) plus a separate undirected component `C—D`. -/
theorem c4_connectivity_precedence_witness :
    analyzeMixedGraph ["A", "B", "C", "D"]
        [⟨"d1", "A", "B", some true⟩, ⟨"d2", "A", "B", some true⟩,
         ⟨"u1", "C", "D", some false⟩]
      = { ok := false, start := none, message := "Graph is not connected", info := none } :=
  c4_connectivity_precedence ["A", "B", "C", "D"]
    [⟨"d1", "A", "B", some true⟩, ⟨"d2", "A", "B", some true⟩,
     ⟨"u1", "C", "D", some false⟩]
    (by decide) (by decide) (by decide)

/-! ### C5: circuit vs. open-trail classification -/

theorem outContrib_source_pos (e : Edge) : 1 ≤ outContrib e e.source := by
  unfold outContrib
  split_ifs <;> simp_all

theorem outDegree_pos_of_mem {edges : List Edge} {e : Edge} (h : e ∈ edges) :
    0 < outDegree edges e.source := by
  have hle : outContrib e e.source ≤ outDegree edges e.source := by
    apply List.single_le_sum (by intro x hx; exact Nat.zero_le x)
    exact List.mem_map.mpr ⟨e, h, rfl⟩
  have := outContrib_source_pos e
  omega

/-- C5: for a connected graph, (a) if every vertex is balanced and there is
at least one edge whose source is listed, the verdict is a cycle with a start
vertex of positive out-degree; (b) if there is exactly one start candidate
`s` and exactly one end candidate `e` (and no vertex of larger imbalance),
the verdict is a path from `s` to `e`; (c) with no vertex of larger
imbalance, every other start/end candidate count yields an infeasible
verdict. -/
theorem c5_circuit_vs_open_trail (nodes : List String) (edges : List Edge) :
    (mixedConnectivityOk nodes edges = true →
      (∀ v ∈ nodes, inDegree edges v = outDegree edges v) →
      ∀ e0 ∈ edges, e0.source ∈ nodes →
      ∃ s, (analyzeMixedGraph nodes edges).ok = true
        ∧ (analyzeMixedGraph nodes edges).start = some s
        ∧ 0 < outDegree edges s
        ∧ (analyzeMixedGraph nodes edges).message = "Euler cycle found")
    ∧ (∀ s e, mixedConnectivityOk nodes edges = true →
        problematicNodes nodes edges = [] →
        startCandidates nodes edges = [s] →
        endCandidates nodes edges = [e] →
        (analyzeMixedGraph nodes edges).ok = true
        ∧ (analyzeMixedGraph nodes edges).start = some s
        ∧ (analyzeMixedGraph nodes edges).message = "Euler path found"
        ∧ ∃ i, (analyzeMixedGraph nodes edges).info = some i
            ∧ i.kind = "path" ∧ i.start = some s ∧ i.stop = some e)
    ∧ (mixedConnectivityOk nodes edges = true →
        problematicNodes nodes edges = [] →
        ¬(startCandidates nodes edges = [] ∧ endCandidates nodes edges = []) →
        ¬((startCandidates nodes edges).length = 1
            ∧ (endCandidates nodes edges).length = 1) →
        (analyzeMixedGraph nodes edges).ok = false
        ∧ (analyzeMixedGraph nodes edges).message = "Invalid start/end configuration") := by
  refine ⟨?_, ?_, ?_⟩
  · intro hconn hbal e0 he0 hsrc
    have hsc : startCandidates nodes edges = [] := by
      unfold startCandidates
      rw [List.filter_eq_nil_iff]
      intro a ha
      have hb := hbal a ha
      simp only [beq_iff_eq]
      omega
    have hec : endCandidates nodes edges = [] := by
      unfold endCandidates
      rw [List.filter_eq_nil_iff]
      intro a ha
      have hb := hbal a ha
      simp only [beq_iff_eq]
      omega
    have hpn : problematicNodes nodes edges = [] := by
      unfold problematicNodes
      rw [List.filter_eq_nil_iff]
      intro a ha
      have hb := hbal a ha
      simp only [Bool.and_eq_true, bne_iff_ne, ne_eq, beq_iff_eq, not_and]
      intro hcontra
      omega
    rcases hfind : nodes.find? (fun n => decide (0 < outDegree edges n)) with _ | s
    · exfalso
      rw [List.find?_eq_none] at hfind
      have := hfind e0.source hsrc
      simp only [decide_eq_true_eq] at this
      exact this (outDegree_pos_of_mem he0)
    · have hs := List.find?_some hfind
      simp only [decide_eq_true_eq] at hs
      refine ⟨s, ?_, ?_, hs, ?_⟩ <;>
        simp [analyzeMixedGraph, hconn, hpn, hsc, hec, hfind]
  · intro s e hconn hpn hsc hec
    refine ⟨?_, ?_, ?_, ?_⟩ <;>
      simp [analyzeMixedGraph, hconn, hpn, hsc, hec]
  · intro hconn hpn hshape hlen
    rcases hsc : startCandidates nodes edges with _ | ⟨a, sc2⟩
    · rcases hec : endCandidates nodes edges with _ | ⟨b, ec2⟩
      · exact absurd ⟨hsc, hec⟩ hshape
      · constructor <;> simp [analyzeMixedGraph, hconn, hpn, hsc, hec]
    · rcases sc2 with _ | ⟨a2, sc3⟩
      · rcases hec : endCandidates nodes edges with _ | ⟨b, ec2⟩
        · constructor <;> simp [analyzeMixedGraph, hconn, hpn, hsc, hec]
        · rcases ec2 with _ | ⟨b2, ec3⟩
          · exact absurd ⟨by rw [hsc]; rfl, by rw [hec]; rfl⟩ hlen
          · constructor <;> simp [analyzeMixedGraph, hconn, hpn, hsc, hec]
      · constructor <;> simp [analyzeMixedGraph, hconn, hpn, hsc]

/-- Witness for C5: part (a) at the directed 3-cycle `A→B→C→A`, part (b) at
the directed path `A→B→C`, part (c) at a connected graph with two start and
two end candidates. -/
theorem c5_circuit_vs_open_trail_witness :
    (∃ s, (analyzeMixedGraph ["A", "B", "C"]
        [⟨"d1", "A", "B", some true⟩, ⟨"d2", "B", "C", some true⟩,
         ⟨"d3", "C", "A", some true⟩]).ok = true
      ∧ (analyzeMixedGraph ["A", "B", "C"]
        [⟨"d1", "A", "B", some true⟩, ⟨"d2", "B", "C", some true⟩,
         ⟨"d3", "C", "A", some true⟩]).start = some s
      ∧ 0 < outDegree [⟨"d1", "A", "B", some true⟩, ⟨"d2", "B", "C", some true⟩,
         ⟨"d3", "C", "A", some true⟩] s
      ∧ (analyzeMixedGraph ["A", "B", "C"]
        [⟨"d1", "A", "B", some true⟩, ⟨"d2", "B", "C", some true⟩,
         ⟨"d3", "C", "A", some true⟩]).message = "Euler cycle found")
    ∧ ((analyzeMixedGraph ["A", "B", "C"]
        [⟨"d1", "A", "B", some true⟩, ⟨"d2", "B", "C", some true⟩]).ok = true
      ∧ (analyzeMixedGraph ["A", "B", "C"]
        [⟨"d1", "A", "B", some true⟩, ⟨"d2", "B", "C", some true⟩]).start = some "A"
      ∧ (analyzeMixedGraph ["A", "B", "C"]
        [⟨"d1", "A", "B", some true⟩, ⟨"d2", "B", "C", some true⟩]).message
          = "Euler path found"
      ∧ ∃ i, (analyzeMixedGraph ["A", "B", "C"]
          [⟨"d1", "A", "B", some true⟩, ⟨"d2", "B", "C", some true⟩]).info = some i
          ∧ i.kind = "path" ∧ i.start = some "A" ∧ i.stop = some "C")
    ∧ ((analyzeMixedGraph ["A", "B", "C", "D"]
        [⟨"d1", "A", "B", some true⟩, ⟨"u1", "B", "C", some false⟩,
         ⟨"d2", "C", "D", some true⟩]).ok = false
      ∧ (analyzeMixedGraph ["A", "B", "C", "D"]
        [⟨"d1", "A", "B", some true⟩, ⟨"u1", "B", "C", some false⟩,
         ⟨"d2", "C", "D", some true⟩]).message = "Invalid start/end configuration") :=
  ⟨(c5_circuit_vs_open_trail ["A", "B", "C"]
      [⟨"d1", "A", "B", some true⟩, ⟨"d2", "B", "C", some true⟩,
       ⟨"d3", "C", "A", some true⟩]).1
    (by decide) (by decide) ⟨"d1", "A", "B", some true⟩ (by decide) (by decide),
   (c5_circuit_vs_open_trail ["A", "B", "C"]
      [⟨"d1", "A", "B", some true⟩, ⟨"d2", "B", "C", some true⟩]).2.1
    "A" "C" (by decide) (by decide) (by decide) (by decide),
   (c5_circuit_vs_open_trail ["A", "B", "C", "D"]
      [⟨"d1", "A", "B", some true⟩, ⟨"u1", "B", "C", some false⟩,
       ⟨"d2", "C", "D", some true⟩]).2.2
    (by decide) (by decide) (by decide) (by decide)⟩

/-! ### C7: the connectivity check -/

/-- Reachability along an adjacency function (reflexive-transitive closure of
the neighbour relation). -/
inductive Reach (adj : String → List String) : String → String → Prop
  | refl (u : String) : Reach adj u u
  | step {u v w : String} : Reach adj u v → w ∈ adj v → Reach adj u w

theorem Reach.trans {adj : String → List String} {u v w : String}
    (h1 : Reach adj u v) (h2 : Reach adj v w) : Reach adj u w := by
  induction h2 with
  | refl => exact h1
  | step _ hmem ih => exact Reach.step ih hmem

theorem Reach.symm_of {adj : String → List String}
    (hsym : ∀ x y, y ∈ adj x → x ∈ adj y) {u v : String}
    (h : Reach adj u v) : Reach adj v u := by
  induction h with
  | refl => exact Reach.refl _
  | step _ hmem ih =>
      exact Reach.trans (Reach.step (Reach.refl _) (hsym _ _ hmem)) ih

theorem mem_insertNew {x a : String} {l : List String} :
    x ∈ insertNew a l ↔ x = a ∨ x ∈ l := by
  unfold insertNew
  split_ifs with h
  · constructor
    · exact Or.inr
    · rintro (rfl | hx)
      · exact h
      · exact hx
  · simp [or_comm]

theorem insertNew_nodup {a : String} {l : List String} (h : l.Nodup) :
    (insertNew a l).Nodup := by
  unfold insertNew
  split_ifs with hmem
  · exact h
  · rw [List.nodup_append]
    exact ⟨h, List.nodup_singleton a, fun x hx hx1 => hmem ((List.mem_singleton.mp hx1) ▸ hx)⟩

theorem mem_verticesWithEdges_go (es : List Edge) :
    ∀ (acc : List String) (x : String),
      x ∈ es.foldl (fun acc e => insertNew e.target (insertNew e.source acc)) acc ↔
        x ∈ acc ∨ ∃ e ∈ es, x = e.source ∨ x = e.target := by
  induction es with
  | nil => intro acc x; simp
  | cons e es ih =>
      intro acc x
      rw [List.foldl_cons, ih, mem_insertNew, mem_insertNew]
      constructor
      · rintro ((rfl | rfl | hacc) | ⟨e2, he2, hor⟩)
        · exact Or.inr ⟨e, List.mem_cons_self e es, Or.inr rfl⟩
        · exact Or.inr ⟨e, List.mem_cons_self e es, Or.inl rfl⟩
        · exact Or.inl hacc
        · exact Or.inr ⟨e2, List.mem_cons_of_mem e he2, hor⟩
      · rintro (hacc | ⟨e2, he2, hor⟩)
        · exact Or.inl (Or.inr (Or.inr hacc))
        · rcases List.mem_cons.mp he2 with rfl | he2t
          · rcases hor with rfl | rfl
            · exact Or.inl (Or.inr (Or.inl rfl))
            · exact Or.inl (Or.inl rfl)
          · exact Or.inr ⟨e2, he2t, hor⟩

theorem mem_verticesWithEdges {edges : List Edge} {x : String} :
    x ∈ verticesWithEdges edges ↔ ∃ e ∈ edges, x = e.source ∨ x = e.target := by
  rw [verticesWithEdges, mem_verticesWithEdges_go]
  simp

theorem verticesWithEdges_nodup (edges : List Edge) :
    (verticesWithEdges edges).Nodup := by
  have go : ∀ (es : List Edge) (acc : List String), acc.Nodup →
      (es.foldl (fun acc e => insertNew e.target (insertNew e.source acc)) acc).Nodup := by
    intro es
    induction es with
    | nil => intro acc h; exact h
    | cons e es ih =>
        intro acc h
        exact ih _ (insertNew_nodup (insertNew_nodup h))
  exact go edges [] List.nodup_nil

theorem mem_addNbr {adj : String → List String} {u v w y : String} :
    y ∈ addNbr adj u v w ↔ (w = u ∧ y = v) ∨ y ∈ adj w := by
  unfold addNbr
  split_ifs with h
  · subst h
    rw [mem_insertNew]
    constructor
    · rintro (rfl | hy)
      · exact Or.inl ⟨rfl, rfl⟩
      · exact Or.inr hy
    · rintro (⟨-, rfl⟩ | hy)
      · exact Or.inl rfl
      · exact Or.inr hy
  · constructor
    · exact Or.inr
    · rintro (⟨rfl, -⟩ | hy)
      · exact absurd rfl h
      · exact hy

theorem mem_connAdj_go (es : List Edge) :
    ∀ (adj0 : String → List String) (x y : String),
      y ∈ (es.foldl (fun adj e =>
          addNbr (addNbr adj e.source e.target) e.target e.source) adj0) x ↔
        y ∈ adj0 x ∨ ∃ e ∈ es, (x = e.source ∧ y = e.target) ∨ (x = e.target ∧ y = e.source) := by
  induction es with
  | nil => intro adj0 x y; simp
  | cons e es ih =>
      intro adj0 x y
      rw [List.foldl_cons, ih, mem_addNbr, mem_addNbr]
      constructor
      · rintro ((⟨rfl, rfl⟩ | ⟨rfl, rfl⟩ | h0) | ⟨e2, he2, hor⟩)
        · exact Or.inr ⟨e, List.mem_cons_self e es, Or.inr ⟨rfl, rfl⟩⟩
        · exact Or.inr ⟨e, List.mem_cons_self e es, Or.inl ⟨rfl, rfl⟩⟩
        · exact Or.inl h0
        · exact Or.inr ⟨e2, List.mem_cons_of_mem e he2, hor⟩
      · rintro (h0 | ⟨e2, he2, hor⟩)
        · exact Or.inl (Or.inr (Or.inr h0))
        · rcases List.mem_cons.mp he2 with rfl | he2t
          · rcases hor with ⟨rfl, rfl⟩ | ⟨rfl, rfl⟩
            · exact Or.inl (Or.inr (Or.inl ⟨rfl, rfl⟩))
            · exact Or.inl (Or.inl ⟨rfl, rfl⟩)
          · exact Or.inr ⟨e2, he2t, hor⟩

theorem mem_connAdj {edges : List Edge} {x y : String} :
    y ∈ connAdj edges x ↔
      ∃ e ∈ edges, (x = e.source ∧ y = e.target) ∨ (x = e.target ∧ y = e.source) := by
  rw [connAdj, mem_connAdj_go]
  simp

theorem connAdj_symm {edges : List Edge} (x y : String)
    (h : y ∈ connAdj edges x) : x ∈ connAdj edges y := by
  rw [mem_connAdj] at h ⊢
  obtain ⟨e, he, hor⟩ := h
  rcases hor with ⟨h1, h2⟩ | ⟨h1, h2⟩
  · exact ⟨e, he, Or.inr ⟨h2, h1⟩⟩
  · exact ⟨e, he, Or.inl ⟨h2, h1⟩⟩

theorem connAdj_mem_verts {edges : List Edge} {x y : String}
    (h : y ∈ connAdj edges x) : y ∈ verticesWithEdges edges := by
  rw [mem_connAdj] at h
  obtain ⟨e, he, hor⟩ := h
  rw [mem_verticesWithEdges]
  rcases hor with ⟨-, rfl⟩ | ⟨-, rfl⟩
  · exact ⟨e, he, Or.inr rfl⟩
  · exact ⟨e, he, Or.inl rfl⟩

theorem connAdj_nodup (edges : List Edge) (x : String) : (connAdj edges x).Nodup := by
  have go : ∀ (es : List Edge) (adj0 : String → List String),
      (∀ w, (adj0 w).Nodup) →
      ∀ w, ((es.foldl (fun adj e =>
          addNbr (addNbr adj e.source e.target) e.target e.source) adj0) w).Nodup := by
    intro es
    induction es with
    | nil => intro adj0 h w; exact h w
    | cons e es ih =>
        intro adj0 h w
        apply ih
        intro w2
        dsimp only [addNbr]
        split_ifs <;> first
          | exact insertNew_nodup (insertNew_nodup (h _))
          | exact insertNew_nodup (h _)
          | exact h _
  exact go edges (fun _ => []) (fun _ => List.nodup_nil) x

theorem bfsAux_cons (adj : String → List String) (fuel : Nat) (x : String)
    (q visited : List String) :
    bfsAux adj (fuel + 1) (x :: q) visited
      = bfsAux adj fuel (q ++ (adj x).filter (fun y => !visited.contains y))
          (visited ++ (adj x).filter (fun y => !visited.contains y)) := rfl

theorem bfsAux_subset (adj : String → List String) :
    ∀ (fuel : Nat) (q vis : List String), ∀ x ∈ vis, x ∈ bfsAux adj fuel q vis := by
  intro fuel
  induction fuel with
  | zero => intro q vis x hx; exact hx
  | succ fuel ih =>
      intro q vis x hx
      cases q with
      | nil => exact hx
      | cons a q1 =>
          rw [bfsAux_cons]
          exact ih _ _ x (List.mem_append_left _ hx)

theorem bfsAux_sound (adj : String → List String) (s : String) :
    ∀ (fuel : Nat) (q vis : List String),
      (∀ x ∈ vis, Reach adj s x) → (∀ x ∈ q, Reach adj s x) →
      ∀ x ∈ bfsAux adj fuel q vis, Reach adj s x := by
  intro fuel
  induction fuel with
  | zero => intro q vis hvis _ x hx; exact hvis x hx
  | succ fuel ih =>
      intro q vis hvis hq x hx
      cases q with
      | nil => exact hvis x hx
      | cons a q1 =>
          rw [bfsAux_cons] at hx
          have hfresh : ∀ y ∈ (adj a).filter (fun y => !vis.contains y), Reach adj s y := by
            intro y hy
            exact Reach.step (hq a (List.mem_cons_self a q1)) (List.mem_of_mem_filter hy)
          refine ih _ _ ?_ ?_ x hx
          · intro z hz
            rcases List.mem_append.mp hz with h | h
            · exact hvis z h
            · exact hfresh z h
          · intro z hz
            rcases List.mem_append.mp hz with h | h
            · exact hq z (List.mem_cons_of_mem a h)
            · exact hfresh z h

theorem bfsAux_closed (adj : String → List String) (verts : List String)
    (hadj : ∀ u, ∀ y ∈ adj u, y ∈ verts)
    (hadjnd : ∀ u, (adj u).Nodup)
    (hvnd : verts.Nodup) :
    ∀ (fuel : Nat) (q vis : List String),
      vis.Nodup →
      (∀ x ∈ q, x ∈ vis) →
      (∀ x ∈ vis, x ∈ verts) →
      (∀ x ∈ vis, x ∉ q → ∀ y ∈ adj x, y ∈ vis) →
      q.length + (verts.length - vis.length) ≤ fuel →
      (∀ x ∈ bfsAux adj fuel q vis, x ∈ verts)
      ∧ (∀ x ∈ bfsAux adj fuel q vis, ∀ y ∈ adj x, y ∈ bfsAux adj fuel q vis) := by
  intro fuel
  induction fuel with
  | zero =>
      intro q vis hnd hqv hvv hproc hfuel
      have hq : q = [] := by
        cases q with
        | nil => rfl
        | cons a q1 => simp at hfuel
      subst hq
      exact ⟨fun x hx => hvv x hx, fun x hx y hy => hproc x hx (by simp) y hy⟩
  | succ fuel ih =>
      intro q vis hnd hqv hvv hproc hfuel
      cases q with
      | nil =>
          exact ⟨fun x hx => hvv x hx, fun x hx y hy => hproc x hx (by simp) y hy⟩
      | cons a q1 =>
          rw [bfsAux_cons]
          have hfresh_sub : ∀ y ∈ (adj a).filter (fun y => !vis.contains y), y ∈ adj a :=
            fun y hy => List.mem_of_mem_filter hy
          have hfresh_not_vis : ∀ y ∈ (adj a).filter (fun y => !vis.contains y), y ∉ vis := by
            intro y hy hvy
            have hp := List.of_mem_filter hy
            simp at hp
            exact hp hvy
          have hfresh_nd : ((adj a).filter (fun y => !vis.contains y)).Nodup :=
            (hadjnd a).filter _
          have hnd2 : (vis ++ (adj a).filter (fun y => !vis.contains y)).Nodup := by
            rw [List.nodup_append]
            exact ⟨hnd, hfresh_nd, fun x hx hx2 => hfresh_not_vis x hx2 hx⟩
          have hqv2 : ∀ x ∈ q1 ++ (adj a).filter (fun y => !vis.contains y),
              x ∈ vis ++ (adj a).filter (fun y => !vis.contains y) := by
            intro x hx
            rcases List.mem_append.mp hx with h | h
            · exact List.mem_append_left _ (hqv x (List.mem_cons_of_mem a h))
            · exact List.mem_append_right _ h
          have hvv2 : ∀ x ∈ vis ++ (adj a).filter (fun y => !vis.contains y), x ∈ verts := by
            intro x hx
            rcases List.mem_append.mp hx with h | h
            · exact hvv x h
            · exact hadj a x (hfresh_sub x h)
          have hproc2 : ∀ x ∈ vis ++ (adj a).filter (fun y => !vis.contains y),
              x ∉ q1 ++ (adj a).filter (fun y => !vis.contains y) →
              ∀ y ∈ adj x, y ∈ vis ++ (adj a).filter (fun y => !vis.contains y) := by
            intro x hx hnq y hy
            have hxvis : x ∈ vis := by
              rcases List.mem_append.mp hx with h | h
              · exact h
              · exact absurd (List.mem_append_right q1 h) hnq
            by_cases hxa : x = a
            · subst hxa
              by_cases hyv : y ∈ vis
              · exact List.mem_append_left _ hyv
              · exact List.mem_append_right _ (List.mem_filter.mpr ⟨hy, by simp [hyv]⟩)
            · have hnq1 : x ∉ (a :: q1) := by
                intro hxq
                rcases List.mem_cons.mp hxq with h | h
                · exact hxa h
                · exact hnq (List.mem_append_left _ h)
              exact List.mem_append_left _ (hproc x hxvis hnq1 y hy)
          have hlen : (q1 ++ (adj a).filter (fun y => !vis.contains y)).length
              + (verts.length - (vis ++ (adj a).filter (fun y => !vis.contains y)).length)
              ≤ fuel := by
            have h1 : (vis ++ (adj a).filter (fun y => !vis.contains y)).length
                ≤ verts.length :=
              (hnd2.subperm (fun x hx => hvv2 x hx)).length_le
            have h2 : vis.length ≤ verts.length :=
              (hnd.subperm (fun x hx => hvv x hx)).length_le
            simp only [List.length_append, List.length_cons] at hfuel h1 ⊢
            omega
          exact ih (q1 ++ (adj a).filter (fun y => !vis.contains y))
            (vis ++ (adj a).filter (fun y => !vis.contains y)) hnd2 hqv2 hvv2 hproc2 hlen

theorem reach_mem_of_closed {adj : String → List String} {R : List String} {s : String}
    (hclosed : ∀ x ∈ R, ∀ y ∈ adj x, y ∈ R) (hs : s ∈ R) :
    ∀ v, Reach adj s v → v ∈ R := by
  intro v h
  induction h with
  | refl => exact hs
  | step _ hmem ih => exact hclosed _ ih _ hmem

/-- C7: the connectivity checker returns `true` exactly when every
non-isolated vertex (an endpoint of some edge, i.e. a vertex of positive
degree in the undirected skeleton) can reach every other such vertex along
edges taken as undirected links; vertices that are not endpoints (isolated
vertices) play no role in the verdict, and a zero-edge graph is accepted. -/
theorem c7_connectivity_iff_reachability (nodes : List String) (edges : List Edge)
    (v : String) :
    (mixedConnectivityOk nodes edges = true ↔
      ∀ u1 ∈ verticesWithEdges edges, ∀ u2 ∈ verticesWithEdges edges,
        Reach (connAdj edges) u1 u2)
    ∧ (v ∈ verticesWithEdges edges ↔ ∃ e ∈ edges, v = e.source ∨ v = e.target)
    ∧ mixedConnectivityOk nodes [] = true := by
  refine ⟨?_, mem_verticesWithEdges, rfl⟩
  have hsym : ∀ x y, y ∈ connAdj edges x → x ∈ connAdj edges y :=
    fun x y hy => connAdj_symm x y hy
  rcases hverts : verticesWithEdges edges with _ | ⟨s, rest⟩
  · constructor
    · intro _ u1 hu1
      cases hu1
    · intro _
      simp [mixedConnectivityOk, hverts]
  · have hok_eq : mixedConnectivityOk nodes edges =
        ((s :: rest).all (fun z =>
            (bfsAux (connAdj edges) (s :: rest).length [s] [s]).contains z)
          && (bfsAux (connAdj edges) (s :: rest).length [s] [s]).all
              (fun z => (s :: rest).contains z)) := by
      simp only [mixedConnectivityOk, hverts]
    constructor
    · intro hok u1 hu1 u2 hu2
      rw [hok_eq, Bool.and_eq_true, List.all_eq_true, List.all_eq_true] at hok
      have hsub1 : ∀ z ∈ (s :: rest),
          z ∈ bfsAux (connAdj edges) (s :: rest).length [s] [s] := by
        intro z hz
        have hc := hok.1 z hz
        simpa using hc
      have hsound : ∀ x ∈ bfsAux (connAdj edges) (s :: rest).length [s] [s],
          Reach (connAdj edges) s x := by
        apply bfsAux_sound
        · intro x hx
          rw [List.mem_singleton] at hx
          rw [hx]
          exact Reach.refl s
        · intro x hx
          rw [List.mem_singleton] at hx
          rw [hx]
          exact Reach.refl s
      have h1 : Reach (connAdj edges) s u1 := hsound u1 (hsub1 u1 hu1)
      have h2 : Reach (connAdj edges) s u2 := hsound u2 (hsub1 u2 hu2)
      exact (h1.symm_of hsym).trans h2
    · intro hmut
      rw [hok_eq, Bool.and_eq_true, List.all_eq_true, List.all_eq_true]
      have hadj : ∀ u, ∀ y ∈ connAdj edges u, y ∈ (s :: rest) := by
        intro u y hy
        rw [← hverts]
        exact connAdj_mem_verts hy
      have hclosed := bfsAux_closed (connAdj edges) (s :: rest) hadj
        (connAdj_nodup edges) (hverts ▸ verticesWithEdges_nodup edges)
        (s :: rest).length [s] [s]
        (List.nodup_singleton s)
        (by intro x hx; exact hx)
        (by intro x hx; rw [List.mem_singleton] at hx; rw [hx]; exact List.mem_cons_self s rest)
        (by intro x hx hnx; exact absurd hx hnx)
        (by simp
            omega)
      obtain ⟨hRsub, hRclosed⟩ := hclosed
      have hsR : s ∈ bfsAux (connAdj edges) (s :: rest).length [s] [s] :=
        bfsAux_subset _ _ _ _ s (List.mem_singleton.mpr rfl)
      have hvertsR : ∀ z ∈ (s :: rest),
          z ∈ bfsAux (connAdj edges) (s :: rest).length [s] [s] := by
        intro z hz
        refine reach_mem_of_closed hRclosed hsR z ?_
        exact hmut s (List.mem_cons_self s rest) z hz
      constructor
      · intro z hz
        simpa using hvertsR z hz
      · intro z hz
        simpa using hRsub z hz

/-! ### C10: an absent `directed` key behaves as `directed: false` -/

/-- Replace an absent `directed` key by an explicit `false` (the claim's
"supplying `directed: false`"). -/
def defaultDirected (e : Edge) : Edge :=
  match e.directed with
  | none => { e with directed := some false }
  | some _ => e

theorem inDegree_map_default (edges : List Edge) (v : String) :
    inDegree (edges.map defaultDirected) v = inDegree edges v := by
  unfold inDegree
  rw [List.map_map]
  have h : (fun e => inContrib e v) ∘ defaultDirected = (fun e => inContrib e v) := by
    funext e
    rcases e with ⟨i, s, t, d⟩
    cases d <;> rfl
  rw [h]

theorem outDegree_map_default (edges : List Edge) (v : String) :
    outDegree (edges.map defaultDirected) v = outDegree edges v := by
  unfold outDegree
  rw [List.map_map]
  have h : (fun e => outContrib e v) ∘ defaultDirected = (fun e => outContrib e v) := by
    funext e
    rcases e with ⟨i, s, t, d⟩
    cases d <;> rfl
  rw [h]

theorem startCandidates_map_default (nodes : List String) (edges : List Edge) :
    startCandidates nodes (edges.map defaultDirected) = startCandidates nodes edges := by
  unfold startCandidates
  have h : (fun n => outDegree (edges.map defaultDirected) n
        == inDegree (edges.map defaultDirected) n + 1)
      = (fun n => outDegree edges n == inDegree edges n + 1) := by
    funext n
    rw [inDegree_map_default, outDegree_map_default]
  rw [h]

theorem endCandidates_map_default (nodes : List String) (edges : List Edge) :
    endCandidates nodes (edges.map defaultDirected) = endCandidates nodes edges := by
  unfold endCandidates
  have h : (fun n => inDegree (edges.map defaultDirected) n
        == outDegree (edges.map defaultDirected) n + 1)
      = (fun n => inDegree edges n == outDegree edges n + 1) := by
    funext n
    rw [inDegree_map_default, outDegree_map_default]
  rw [h]

theorem problematicNodes_map_default (nodes : List String) (edges : List Edge) :
    problematicNodes nodes (edges.map defaultDirected) = problematicNodes nodes edges := by
  unfold problematicNodes
  have h : (fun n => inDegree (edges.map defaultDirected) n
          != outDegree (edges.map defaultDirected) n
        && outDegree (edges.map defaultDirected) n
          != inDegree (edges.map defaultDirected) n + 1
        && inDegree (edges.map defaultDirected) n
          != outDegree (edges.map defaultDirected) n + 1)
      = (fun n => inDegree edges n != outDegree edges n
        && outDegree edges n != inDegree edges n + 1
        && inDegree edges n != outDegree edges n + 1) := by
    funext n
    rw [inDegree_map_default, outDegree_map_default]
  rw [h]

theorem verticesWithEdges_map_default (edges : List Edge) :
    verticesWithEdges (edges.map defaultDirected) = verticesWithEdges edges := by
  unfold verticesWithEdges
  rw [List.foldl_map]
  have h : (fun (acc : List String) (e : Edge) =>
        insertNew (defaultDirected e).target (insertNew (defaultDirected e).source acc))
      = (fun acc e => insertNew e.target (insertNew e.source acc)) := by
    funext acc e
    rcases e with ⟨i, s, t, d⟩
    cases d <;> rfl
  rw [h]

theorem connAdj_map_default (edges : List Edge) :
    connAdj (edges.map defaultDirected) = connAdj edges := by
  unfold connAdj
  rw [List.foldl_map]
  have h : (fun (adj : String → List String) (e : Edge) =>
        addNbr (addNbr adj (defaultDirected e).source (defaultDirected e).target)
          (defaultDirected e).target (defaultDirected e).source)
      = (fun adj e => addNbr (addNbr adj e.source e.target) e.target e.source) := by
    funext adj e
    rcases e with ⟨i, s, t, d⟩
    cases d <;> rfl
  rw [h]

theorem mixedConnectivityOk_map_default (nodes : List String) (edges : List Edge) :
    mixedConnectivityOk nodes (edges.map defaultDirected) = mixedConnectivityOk nodes edges := by
  unfold mixedConnectivityOk
  rw [verticesWithEdges_map_default, connAdj_map_default]

theorem filter_directed_map_default (edges : List Edge) :
    ((edges.map defaultDirected).filter (fun e => isDirected e)).length
      = (edges.filter (fun e => isDirected e)).length := by
  rw [← List.countP_eq_length_filter, ← List.countP_eq_length_filter, List.countP_map]
  have h : ((fun e => isDirected e) ∘ defaultDirected) = (fun e => isDirected e) := by
    funext e
    rcases e with ⟨i, s, t, d⟩
    cases d <;> rfl
  rw [h]

theorem filter_undirected_map_default (edges : List Edge) :
    ((edges.map defaultDirected).filter (fun e => !isDirected e)).length
      = (edges.filter (fun e => !isDirected e)).length := by
  rw [← List.countP_eq_length_filter, ← List.countP_eq_length_filter, List.countP_map]
  have h : ((fun e => !isDirected e) ∘ defaultDirected) = (fun e => !isDirected e) := by
    funext e
    rcases e with ⟨i, s, t, d⟩
    cases d <;> rfl
  rw [h]

theorem analyzeMixedGraph_map_default (nodes : List String) (edges : List Edge) :
    analyzeMixedGraph nodes (edges.map defaultDirected) = analyzeMixedGraph nodes edges := by
  unfold analyzeMixedGraph
  have hfind : (fun n => decide (0 < outDegree (edges.map defaultDirected) n))
      = (fun n => decide (0 < outDegree edges n)) := by
    funext n
    rw [outDegree_map_default]
  rw [mixedConnectivityOk_map_default, problematicNodes_map_default,
    startCandidates_map_default, endCandidates_map_default, hfind,
    filter_directed_map_default, filter_undirected_map_default]

theorem buildAdj_map_default (edges : List Edge) :
    buildAdj (edges.map defaultDirected) = buildAdj edges := by
  unfold buildAdj
  rw [List.foldl_map]
  have h : (fun (adj : String → List (String × String)) (e : Edge) =>
        let adj1 := pushOpt adj (defaultDirected e).source
          ((defaultDirected e).id, (defaultDirected e).target)
        if isDirected (defaultDirected e) then adj1
        else pushOpt adj1 (defaultDirected e).target
          ((defaultDirected e).id, (defaultDirected e).source))
      = (fun adj e =>
        let adj1 := pushOpt adj e.source (e.id, e.target)
        if isDirected e then adj1 else pushOpt adj1 e.target (e.id, e.source)) := by
    funext adj e
    rcases e with ⟨i, s, t, d⟩
    cases d <;> rfl
  rw [h]

theorem findCircuitAux_map_default (edges : List Edge) :
    ∀ (fuel : Nat) (stack circuit used : List String)
      (remaining : String → List (String × String)),
      findCircuitAux (edges.map defaultDirected) fuel stack circuit used remaining
        = findCircuitAux edges fuel stack circuit used remaining := by
  intro fuel
  induction fuel with
  | zero => intro stack circuit used remaining; rfl
  | succ fuel ih =>
      intro stack circuit used remaining
      cases stack with
      | nil => rfl
      | cons curr stack1 =>
          simp only [findCircuitAux]
          cases hidx : findUnusedIdx used (remaining curr) 0 with
          | none => exact ih _ _ _ _
          | some trip =>
              obtain ⟨i, eid, nv⟩ := trip
              dsimp only
              have hfind : (edges.map defaultDirected).find? (fun e => e.id == eid)
                  = (edges.find? (fun e => e.id == eid)).map defaultDirected := by
                rw [List.find?_map]
                have hp : ((fun e : Edge => e.id == eid) ∘ defaultDirected)
                    = (fun e : Edge => e.id == eid) := by
                  funext e
                  rcases e with ⟨i2, s2, t2, d2⟩
                  cases d2 <;> rfl
                rw [hp]
              rw [hfind]
              cases hfo : edges.find? (fun e => e.id == eid) with
              | none => exact ih _ _ _ _
              | some eo =>
                  have hdir : isDirected (defaultDirected eo) = isDirected eo := by
                    rcases eo with ⟨i2, s2, t2, d2⟩
                    cases d2 <;> rfl
                  simp only [Option.map_some', hdir]
                  exact ih _ _ _ _

theorem findCircuit_map_default (edges : List Edge)
    (adj : String → List (String × String)) (startNode : String) :
    findCircuit (edges.map defaultDirected) adj startNode = findCircuit edges adj startNode := by
  unfold findCircuit
  rw [List.length_map, findCircuitAux_map_default]

theorem spliceLoop_map_default (edges : List Edge)
    (adj : String → List (String × String)) :
    ∀ (fuel : Nat) (circuit used : List String),
      spliceLoop (edges.map defaultDirected) adj fuel circuit used
        = spliceLoop edges adj fuel circuit used := by
  intro fuel
  induction fuel with
  | zero => intro circuit used; rfl
  | succ fuel ih =>
      intro circuit used
      simp only [spliceLoop, List.length_map]
      split_ifs with hlt
      · cases hfind : circuit.find? (fun v => (adj v).any (fun p => !used.contains p.1)) with
        | none => rfl
        | some sv =>
            dsimp only
            rw [findCircuit_map_default, ih]
      · rfl

theorem findStepEdge_map_default (edges : List Edge) (seq : List String) (u v : String) :
    findStepEdge (edges.map defaultDirected) seq u v = findStepEdge edges seq u v := by
  unfold findStepEdge
  rw [List.find?_map]
  have hp : ((fun e : Edge => !seq.contains e.id
        && ((e.source == u && e.target == v)
            || (!isDirected e && e.source == v && e.target == u))) ∘ defaultDirected)
      = (fun e : Edge => !seq.contains e.id
        && ((e.source == u && e.target == v)
            || (!isDirected e && e.source == v && e.target == u))) := by
    funext e
    rcases e with ⟨i, s, t, d⟩
    cases d <;> rfl
  rw [hp, Option.map_map]
  have hid : ((fun e : Edge => e.id) ∘ defaultDirected) = (fun e : Edge => e.id) := by
    funext e
    rcases e with ⟨i, s, t, d⟩
    cases d <;> rfl
  rw [hid]

theorem buildSequence_map_default (edges : List Edge) :
    ∀ (path seq : List String),
      buildSequence (edges.map defaultDirected) path seq = buildSequence edges path seq := by
  intro path
  induction path with
  | nil => intro seq; rfl
  | cons u rest ih =>
      intro seq
      cases rest with
      | nil => rfl
      | cons v rest2 =>
          simp only [buildSequence, findStepEdge_map_default]
          cases findStepEdge edges seq u v with
          | none => rfl
          | some eid => exact ih _

theorem lookupEdge_map_default (edges : List Edge) (eid : String) :
    lookupEdge (edges.map defaultDirected) eid = (lookupEdge edges eid).map defaultDirected := by
  unfold lookupEdge
  rw [← List.map_reverse, List.find?_map]
  have hp : ((fun e : Edge => e.id == eid) ∘ defaultDirected)
      = (fun e : Edge => e.id == eid) := by
    funext e
    rcases e with ⟨i, s, t, d⟩
    cases d <;> rfl
  rw [hp]

theorem mkTrailStepsAux_map_default (edges : List Edge) :
    ∀ (trail : List String) (i : Nat),
      mkTrailStepsAux (edges.map defaultDirected) i trail = mkTrailStepsAux edges i trail := by
  intro trail
  induction trail with
  | nil => intro i; rfl
  | cons eid rest ih =>
      intro i
      simp only [mkTrailStepsAux, lookupEdge_map_default]
      cases hlk : lookupEdge edges eid with
      | none => exact ih _
      | some e =>
          simp only [Option.map_some']
          have hs : (defaultDirected e).source = e.source := by
            rcases e with ⟨i2, s2, t2, d2⟩; cases d2 <;> rfl
          have ht : (defaultDirected e).target = e.target := by
            rcases e with ⟨i2, s2, t2, d2⟩; cases d2 <;> rfl
          have hd : isDirected (defaultDirected e) = isDirected e := by
            rcases e with ⟨i2, s2, t2, d2⟩; cases d2 <;> rfl
          rw [hs, ht, hd, ih]

theorem hierholzerFrom_map_default (edges : List Edge) (startNode : String) :
    hierholzerFrom (edges.map defaultDirected) startNode = hierholzerFrom edges startNode := by
  simp only [hierholzerFrom]
  rw [buildAdj_map_default, findCircuit_map_default, List.length_map,
    spliceLoop_map_default, buildSequence_map_default]

theorem hierholzerMixed_map_default (nodes : List String) (edges : List Edge) :
    hierholzerMixed nodes (edges.map defaultDirected) = hierholzerMixed nodes edges := by
  unfold hierholzerMixed
  rw [analyzeMixedGraph_map_default]
  cases (analyzeMixedGraph nodes edges).start with
  | none => rfl
  | some startNode =>
      cases (analyzeMixedGraph nodes edges).ok with
      | false => rfl
      | true => exact hierholzerFrom_map_default edges startNode

theorem findEulerTrailMixed_map_default (nodes : List String) (edges : List Edge) :
    findEulerTrailMixed nodes (edges.map defaultDirected) = findEulerTrailMixed nodes edges := by
  simp only [findEulerTrailMixed]
  have hemp : (edges.map defaultDirected).isEmpty = edges.isEmpty := by
    cases edges <;> rfl
  have hmk : mkTrailSteps (edges.map defaultDirected) = mkTrailSteps edges := by
    funext tr
    exact mkTrailStepsAux_map_default edges tr 1
  rw [hemp, analyzeMixedGraph_map_default, hierholzerMixed_map_default, hmk]

/-- C10: an edge without a `directed` field is treated as undirected by
every core operation — degree analysis, connectivity, adjacency construction,
trail reconstruction and step assembly all return exactly the same results if
every absent flag is replaced by an explicit `directed: false`; and the
replacement itself only fills in `some false` where the flag was absent. -/
theorem c10_missing_directed_is_false (nodes : List String) (edges : List Edge)
    (i s t : String) :
    analyzeMixedGraph nodes (edges.map defaultDirected) = analyzeMixedGraph nodes edges
    ∧ hierholzerMixed nodes (edges.map defaultDirected) = hierholzerMixed nodes edges
    ∧ findEulerTrailMixed nodes (edges.map defaultDirected) = findEulerTrailMixed nodes edges
    ∧ defaultDirected ⟨i, s, t, none⟩ = ⟨i, s, t, some false⟩
    ∧ ∀ b : Bool, defaultDirected ⟨i, s, t, some b⟩ = ⟨i, s, t, some b⟩ :=
  ⟨analyzeMixedGraph_map_default nodes edges,
   hierholzerMixed_map_default nodes edges,
   findEulerTrailMixed_map_default nodes edges,
   rfl,
   fun _ => rfl⟩

end EulerTrail
